import Mathlib

/-!
Verification of the queue worker-pool example (`0206_queue.py`).

The development shallowly embeds the program together with the CPython
library routines it calls (`heapq.heappush` / `heapq.heappop`, the
counter logic of `queue.Queue`): pure functions become Lean functions,
the stateful queue becomes explicit state passing, and Python exceptions
become `Except` values.
-/

/-! ## The `Job` class (`@functools.total_ordering class Job`) -/

structure Job where
  priority : Int
  description : String
deriving DecidableEq

instance : Inhabited Job := ⟨⟨0, ""⟩⟩

/-- A Python value a `Job` may be compared against: either another `Job`
(which has a `priority` attribute) or an object without one. -/
inductive PyVal where
| job : Job → PyVal
| noPriorityObj : Nat → PyVal
deriving DecidableEq

inductive AttrError where
| attributeError : AttrError
deriving DecidableEq

/-- Attribute access `other.priority`: raises `AttributeError` when the
object has no such attribute. -/
def PyVal.priorityAttr : PyVal → Except AttrError Int
| PyVal.job j => Except.ok j.priority
| PyVal.noPriorityObj _ => Except.error AttrError.attributeError

/-- Result of a Python rich-comparison method: a boolean, or the
`NotImplemented` sentinel. -/
inductive CmpResult where
| boolRes : Bool → CmpResult
| notImplemented : CmpResult
deriving DecidableEq

/-- `Job.__eq__`: `try: return self.priority == other.priority
except AttributeError: return NotImplemented`. -/
def Job.eqPy (self : Job) (other : PyVal) : CmpResult :=
  match other.priorityAttr with
  | Except.ok p => CmpResult.boolRes (decide (self.priority = p))
  | Except.error AttrError.attributeError => CmpResult.notImplemented

/-- `Job.__lt__`: `try: return self.priority < other.priority
except AttributeError: return NotImplemented`. -/
def Job.ltPy (self : Job) (other : PyVal) : CmpResult :=
  match other.priorityAttr with
  | Except.ok p => CmpResult.boolRes (decide (self.priority < p))
  | Except.error AttrError.attributeError => CmpResult.notImplemented

/-- The boolean `<` actually used between two `Job`s (what `heapq`
evaluates via `Job.__lt__`). -/
def jobLtB (a b : Job) : Bool := decide (a.priority < b.priority)

/-! ## CPython `heapq` (used by `queue.PriorityQueue._put` / `._get`)

`_siftdown(heap, startpos, pos)` reads `newitem = heap[pos]`, then walks
up swapping the parent down while `newitem < parent`, finally storing
`newitem`.  `_siftup(heap, pos)` reads `newitem = heap[pos]`, repeatedly
moves the smaller child up until a leaf, then calls `_siftdown`. -/

/-- The `while pos > startpos` loop of `heapq._siftdown`, with the moving
value `newitem` carried explicitly. -/
def siftdownLoop [Inhabited α] (lt : α → α → Bool) (startpos : Nat) (newitem : α)
    (pos : Nat) (heap : List α) : List α :=
  if h : startpos < pos then
    let parentpos := (pos - 1) / 2
    let parent := heap.getD parentpos default
    if lt newitem parent then
      siftdownLoop lt startpos newitem parentpos (heap.set pos parent)
    else
      heap.set pos newitem
  else
    heap.set pos newitem
termination_by pos
decreasing_by omega

/-- `heapq._siftdown(heap, startpos, pos)`. -/
def siftdown [Inhabited α] (lt : α → α → Bool) (heap : List α) (startpos pos : Nat) : List α :=
  siftdownLoop lt startpos (heap.getD pos default) pos heap

/-- The `while childpos < endpos` loop of `heapq._siftup`, followed by the
trailing `_siftdown` call. -/
def siftupLoop [Inhabited α] (lt : α → α → Bool) (endpos startpos : Nat) (newitem : α)
    (pos : Nat) (heap : List α) : List α :=
  let childpos := 2 * pos + 1
  if h : childpos < endpos then
    let rightpos := childpos + 1
    let childpos2 :=
      if rightpos < endpos ∧ lt (heap.getD childpos default) (heap.getD rightpos default) = false
      then rightpos else childpos
    siftupLoop lt endpos startpos newitem childpos2 (heap.set pos (heap.getD childpos2 default))
  else
    siftdownLoop lt startpos newitem pos (heap.set pos newitem)
termination_by endpos - pos
decreasing_by
  split <;> omega

/-- `heapq._siftup(heap, pos)` (its `startpos` is `pos` itself). -/
def siftup [Inhabited α] (lt : α → α → Bool) (heap : List α) (pos : Nat) : List α :=
  siftupLoop lt heap.length pos (heap.getD pos default) pos heap

/-- `heapq.heappush`: `heap.append(item); _siftdown(heap, 0, len(heap)-1)`. -/
def heappush [Inhabited α] (lt : α → α → Bool) (heap : List α) (item : α) : List α :=
  siftdown lt (heap ++ [item]) 0 heap.length

/-- `heapq.heappop`: pop the last element; when the remainder is nonempty,
move the last element to the root and `_siftup(heap, 0)`.  Returns `none`
when the heap is empty (`IndexError` in Python; the queue never calls
`_get` on an empty buffer). -/
def heappop [Inhabited α] (lt : α → α → Bool) (heap : List α) : Option (α × List α) :=
  match heap.getLast? with
  | none => none
  | some lastelt =>
    let rest := heap.dropLast
    if rest.isEmpty then some (lastelt, [])
    else some (rest.getD 0 default, siftup lt (rest.set 0 lastelt) 0)

/-! ## `queue.Queue` / `queue.PriorityQueue` state and operations -/

/-- The shared mutable state of a `queue.Queue`: the pending buffer
(`self.queue`) and the in-flight counter (`self.unfinished_tasks`). -/
structure QState (α : Type) where
  queue : List α
  unfinished_tasks : Nat
deriving DecidableEq

inductive VErr where
| valueError : VErr
deriving DecidableEq

/-- `Queue.put`: `self._put(item); self.unfinished_tasks += 1`.  The
buffer-insertion discipline `enq` is `_put` (FIFO append, or `heappush`). -/
def qput (enq : List α → α → List α) (s : QState α) (x : α) : QState α :=
  ⟨enq s.queue x, s.unfinished_tasks + 1⟩

/-- Outcome of a `Queue.get` call. -/
inductive GetOutcome (α : Type) where
| got : α → QState α → GetOutcome α
| blocked : GetOutcome α
| emptyErr : GetOutcome α
deriving DecidableEq

/-- `Queue.get(block)`: with `block=True` it waits (here: `blocked`) while
the buffer is empty; with `block=False` it raises `Empty`.  `deq` is
`self._get()` (FIFO popleft, or `heappop`), which consumes one item
exactly when the buffer is nonempty. -/
def qget (deq : List α → Option (α × List α)) (block : Bool) (s : QState α) : GetOutcome α :=
  match deq s.queue with
  | none => if block then GetOutcome.blocked else GetOutcome.emptyErr
  | some (x, r) => GetOutcome.got x ⟨r, s.unfinished_tasks⟩

/-- `Queue.task_done`: raises `ValueError` when called more times than
there were items placed in the queue; otherwise decrements
`unfinished_tasks`. -/
def task_done (s : QState α) : Except VErr (QState α) :=
  if s.unfinished_tasks = 0 then Except.error VErr.valueError
  else Except.ok ⟨s.queue, s.unfinished_tasks - 1⟩

/-- `Queue.join`: returns exactly when `unfinished_tasks == 0`. -/
def joinUnblocked (s : QState α) : Prop := s.unfinished_tasks = 0

/-- `_put` of plain `queue.Queue`: `self.queue.append(item)`. -/
def fifoEnq (l : List α) (x : α) : List α := l ++ [x]

/-- `_get` of plain `queue.Queue`: `self.queue.popleft()`. -/
def fifoDeq : List α → Option (α × List α)
| [] => none
| x :: r => some (x, r)

/-- `_put` of `PriorityQueue`: `heappush(self.queue, item)`. -/
def prioEnq (l : List Job) (x : Job) : List Job := heappush jobLtB l x

/-- `_get` of `PriorityQueue`: `heappop(self.queue)`. -/
def prioDeq (l : List Job) : Option (Job × List Job) := heappop jobLtB l

/-! ## Traces of queue operations -/

/-- One queue operation as issued by producers / workers / the main
thread. -/
inductive QOp (α : Type) where
| put : α → QOp α
| get : QOp α
| taskDoneOp : QOp α
| joinOp : QOp α
deriving DecidableEq

/-- Run a schedule of queue operations.  A blocked `get` (empty buffer),
a blocked `join` (nonzero counter) or an erroring `task_done` yields
`none`; otherwise the final state and the list of values the `get` calls
returned, in order. -/
def runQ (enq : List α → α → List α) (deq : List α → Option (α × List α)) :
    QState α → List (QOp α) → Option (QState α × List α)
| s, [] => some (s, [])
| s, QOp.put x :: ops => runQ enq deq (qput enq s x) ops
| s, QOp.get :: ops =>
  match qget deq true s with
  | GetOutcome.got x s1 =>
    match runQ enq deq s1 ops with
    | none => none
    | some (s2, outs) => some (s2, x :: outs)
  | GetOutcome.blocked => none
  | GetOutcome.emptyErr => none
| s, QOp.taskDoneOp :: ops =>
  match task_done s with
  | Except.error _ => none
  | Except.ok s1 => runQ enq deq s1 ops
| s, QOp.joinOp :: ops =>
  if s.unfinished_tasks = 0 then runQ enq deq s ops else none

/-- The values enqueued by a schedule, in order. -/
def putsOf : List (QOp α) → List α
| [] => []
| QOp.put x :: ops => x :: putsOf ops
| _ :: ops => putsOf ops

/-- Number of `put` operations in a schedule. -/
def countPuts : List (QOp α) → Nat
| [] => 0
| QOp.put _ :: ops => countPuts ops + 1
| _ :: ops => countPuts ops

/-- Number of `task_done` operations in a schedule. -/
def countDones : List (QOp α) → Nat
| [] => 0
| QOp.taskDoneOp :: ops => countDones ops + 1
| _ :: ops => countDones ops

/-! ## List index helpers -/

theorem getD_set_self (l : List α) (i : Nat) (a d : α) (h : i < l.length) :
    (l.set i a).getD i d = a := by
  induction l generalizing i with
  | nil => simp at h
  | cons x xs ih =>
    cases i with
    | zero => rfl
    | succ n => simpa using ih n (by simpa using h)

theorem getD_set_ne (l : List α) (i j : Nat) (a d : α) (h : i ≠ j) :
    (l.set i a).getD j d = l.getD j d := by
  induction l generalizing i j with
  | nil => simp [List.set]
  | cons x xs ih =>
    cases i with
    | zero =>
      cases j with
      | zero => exact absurd rfl h
      | succ m => rfl
    | succ n =>
      cases j with
      | zero => rfl
      | succ m => simpa using ih n m (by omega)

theorem getD_append_lt (l t : List α) (i : Nat) (d : α) (h : i < l.length) :
    (l ++ t).getD i d = l.getD i d := by
  induction l generalizing i with
  | nil => simp at h
  | cons x xs ih =>
    cases i with
    | zero => rfl
    | succ n => simpa using ih n (by simpa using h)

theorem getD_append_len (l : List α) (a d : α) :
    (l ++ [a]).getD l.length d = a := by
  induction l with
  | nil => rfl
  | cons x xs ih => simp [ih]

theorem getD_dropLast (l : List α) (i : Nat) (d : α) (h : i + 1 < l.length) :
    l.dropLast.getD i d = l.getD i d := by
  induction l generalizing i with
  | nil => simp at h
  | cons x xs ih =>
    cases xs with
    | nil => simp at h
    | cons y ys =>
      cases i with
      | zero => rfl
      | succ n =>
        have := ih n (by simpa using h)
        simpa using this

theorem getD_mem (l : List α) (i : Nat) (d : α) (h : i < l.length) :
    l.getD i d ∈ l := by
  induction l generalizing i with
  | nil => simp at h
  | cons x xs ih =>
    cases i with
    | zero => simp [List.getD]
    | succ n =>
      have := ih n (by simpa using h)
      simp [List.getD] at this ⊢
      exact Or.inr this

theorem mem_getD (l : List α) (y d : α) (h : y ∈ l) :
    ∃ i, i < l.length ∧ l.getD i d = y := by
  induction l with
  | nil => simp at h
  | cons x xs ih =>
    rcases List.mem_cons.mp h with h | h
    · exact ⟨0, by simp, by simp [h]⟩
    · rcases ih h with ⟨i, hi, hv⟩
      exact ⟨i + 1, by simpa using hi, by simpa using hv⟩

/-! ## The heap invariant -/

/-- Key read at an index (out-of-range reads return `default`; all uses
keep indices in range). -/
def keyAt [Inhabited α] (key : α → Int) (h : List α) (i : Nat) : Int :=
  key (h.getD i default)

/-- The binary-heap invariant of CPython `heapq`: every parent key is at
most each of its children's keys. -/
def IsHeap [Inhabited α] (key : α → Int) (h : List α) : Prop :=
  ∀ i j, j < h.length → (j = 2 * i + 1 ∨ j = 2 * i + 2) → keyAt key h i ≤ keyAt key h j

theorem lt_key_true (lt : α → α → Bool) (key : α → Int)
    (hlt : ∀ a b, lt a b = decide (key a < key b)) (a b : α) :
    lt a b = true ↔ key a < key b := by
  rw [hlt]; simp

theorem lt_key_false (lt : α → α → Bool) (key : α → Int)
    (hlt : ∀ a b, lt a b = decide (key a < key b)) (a b : α) :
    lt a b = false ↔ key b ≤ key a := by
  rw [hlt]; simp [Int.not_lt]

theorem keyAt_set_self [Inhabited α] (key : α → Int) (l : List α) (i : Nat) (a : α)
    (h : i < l.length) : keyAt key (l.set i a) i = key a := by
  unfold keyAt; rw [getD_set_self _ _ _ _ h]

theorem keyAt_set_ne [Inhabited α] (key : α → Int) (l : List α) (i j : Nat) (a : α)
    (h : i ≠ j) : keyAt key (l.set i a) j = keyAt key l j := by
  unfold keyAt; rw [getD_set_ne _ _ _ _ _ h]

theorem keyAt_append_lt [Inhabited α] (key : α → Int) (l t : List α) (i : Nat)
    (h : i < l.length) : keyAt key (l ++ t) i = keyAt key l i := by
  unfold keyAt; rw [getD_append_lt _ _ _ _ h]

theorem keyAt_dropLast [Inhabited α] (key : α → Int) (l : List α) (i : Nat)
    (h : i + 1 < l.length) : keyAt key l.dropLast i = keyAt key l i := by
  unfold keyAt; rw [getD_dropLast _ _ _ h]

/-- Main invariant-preservation lemma for the `_siftdown` loop: if the
array is a heap except around the hole at `pos`, the children of the hole
dominate `newitem`, and the children of the hole dominate the hole's
parent, the loop restores the full heap invariant. -/
theorem siftdownLoop_isHeap [Inhabited α] (lt : α → α → Bool) (key : α → Int)
    (hlt : ∀ a b, lt a b = decide (key a < key b)) (newitem : α) :
    ∀ pos heap, pos < heap.length →
    (∀ i j, j < heap.length → (j = 2 * i + 1 ∨ j = 2 * i + 2) → i ≠ pos → j ≠ pos →
      keyAt key heap i ≤ keyAt key heap j) →
    (∀ j, j < heap.length → (j = 2 * pos + 1 ∨ j = 2 * pos + 2) →
      key newitem ≤ keyAt key heap j) →
    (0 < pos → ∀ j, j < heap.length → (j = 2 * pos + 1 ∨ j = 2 * pos + 2) →
      keyAt key heap ((pos - 1) / 2) ≤ keyAt key heap j) →
    IsHeap key (siftdownLoop lt 0 newitem pos heap) := by
  intro pos
  induction pos using Nat.strong_induction_on with
  | _ pos ih =>
    intro heap hpos h1 h2 h3
    rw [siftdownLoop]
    split
    next hp =>
      dsimp only
      split
      next hb =>
        apply ih ((pos - 1) / 2) (by omega)
        · simp only [List.length_set]; omega
        · intro i j hj hc hip hjp
          simp only [List.length_set] at hj
          by_cases hi : i = pos
          · have hjpos : j ≠ pos := by omega
            rw [hi, keyAt_set_self key heap pos _ hpos,
              keyAt_set_ne key heap pos j _ (by omega)]
            exact h3 hp j hj (by omega)
          · by_cases hjq : j = pos
            · exact absurd (by omega) hip
            · rw [keyAt_set_ne key heap pos i _ (by omega),
                keyAt_set_ne key heap pos j _ (by omega)]
              exact h1 i j hj hc hi hjq
        · intro j hj hc
          simp only [List.length_set] at hj
          have hnip : key newitem < key (heap.getD ((pos - 1) / 2) default) :=
            (lt_key_true lt key hlt _ _).mp hb
          by_cases hjq : j = pos
          · rw [hjq, keyAt_set_self key heap pos _ hpos]
            exact le_of_lt hnip
          · rw [keyAt_set_ne key heap pos j _ (by omega)]
            have hppos : (pos - 1) / 2 ≠ pos := by omega
            exact le_trans (le_of_lt hnip) (h1 ((pos - 1) / 2) j hj hc hppos hjq)
        · intro hp0 j hj hc
          simp only [List.length_set] at hj
          have hppos : (pos - 1) / 2 ≠ pos := by omega
          have hplen : (pos - 1) / 2 < heap.length := by omega
          have hgp := h1 (((pos - 1) / 2 - 1) / 2) ((pos - 1) / 2) hplen (by omega)
            (by omega) hppos
          rw [keyAt_set_ne key heap pos (((pos - 1) / 2 - 1) / 2) _ (by omega)]
          by_cases hjq : j = pos
          · rw [hjq, keyAt_set_self key heap pos _ hpos]
            exact hgp
          · rw [keyAt_set_ne key heap pos j _ (by omega)]
            exact le_trans hgp (h1 ((pos - 1) / 2) j hj hc hppos hjq)
      next hb =>
        rw [Bool.not_eq_true] at hb
        intro i j hj hc
        simp only [List.length_set] at hj
        by_cases hi : i = pos
        · have hjq : j ≠ pos := by omega
          rw [hi, keyAt_set_self key heap pos _ hpos, keyAt_set_ne key heap pos j _ (by omega)]
          exact h2 j hj (by omega)
        · by_cases hjq : j = pos
          · have hip2 : i = (pos - 1) / 2 := by omega
            rw [hjq, keyAt_set_self key heap pos _ hpos,
              keyAt_set_ne key heap pos i _ (by omega), hip2]
            exact (lt_key_false lt key hlt _ _).mp hb
          · rw [keyAt_set_ne key heap pos i _ (by omega),
              keyAt_set_ne key heap pos j _ (by omega)]
            exact h1 i j hj hc hi hjq
    next hp =>
      have hp0 : pos = 0 := by omega
      subst hp0
      intro i j hj hc
      simp only [List.length_set] at hj
      by_cases hi : i = 0
      · have hjq : j ≠ 0 := by omega
        rw [hi, keyAt_set_self key heap 0 _ hpos, keyAt_set_ne key heap 0 j _ (by omega)]
        exact h2 j hj (by omega)
      · have hjq : j ≠ 0 := by omega
        rw [keyAt_set_ne key heap 0 i _ (by omega), keyAt_set_ne key heap 0 j _ (by omega)]
        exact h1 i j hj hc hi hjq

/-- Exit branch of the `_siftup` loop: the hole has no children, so the
trailing `_siftdown` restores the heap invariant. -/
theorem siftupExitIsHeap [Inhabited α] (lt : α → α → Bool) (key : α → Int)
    (hlt : ∀ a b, lt a b = decide (key a < key b)) (newitem : α) (endpos pos : Nat)
    (heap : List α) (hend : endpos = heap.length) (hpos : pos < heap.length)
    (hnc : ¬ 2 * pos + 1 < endpos)
    (k1 : ∀ i j, j < heap.length → (j = 2 * i + 1 ∨ j = 2 * i + 2) → i ≠ pos → j ≠ pos →
      keyAt key heap i ≤ keyAt key heap j) :
    IsHeap key (siftdownLoop lt 0 newitem pos (heap.set pos newitem)) := by
  apply siftdownLoop_isHeap lt key hlt newitem pos (heap.set pos newitem)
  · simp only [List.length_set]; exact hpos
  · intro i j hj hc hip hjp
    simp only [List.length_set] at hj
    rw [keyAt_set_ne key heap pos i _ (by omega), keyAt_set_ne key heap pos j _ (by omega)]
    exact k1 i j hj hc hip hjp
  · intro j hj hc
    exfalso
    simp only [List.length_set] at hj
    omega
  · intro hp0 j hj hc
    exfalso
    simp only [List.length_set] at hj
    omega

/-- Moving the chosen (minimal-key) child `c` of the hole `pos` up into
the hole transfers the `_siftup` loop invariants from `pos` to `c`. -/
theorem descendInvariants [Inhabited α] (key : α → Int) (pos c : Nat) (heap : List α)
    (hpos : pos < heap.length) (hc : c = 2 * pos + 1 ∨ c = 2 * pos + 2)
    (hclen : c < heap.length)
    (hmin : ∀ j, j < heap.length → (j = 2 * pos + 1 ∨ j = 2 * pos + 2) →
      keyAt key heap c ≤ keyAt key heap j)
    (k1 : ∀ i j, j < heap.length → (j = 2 * i + 1 ∨ j = 2 * i + 2) → i ≠ pos → j ≠ pos →
      keyAt key heap i ≤ keyAt key heap j)
    (k3 : 0 < pos → ∀ j, j < heap.length → (j = 2 * pos + 1 ∨ j = 2 * pos + 2) →
      keyAt key heap ((pos - 1) / 2) ≤ keyAt key heap j) :
    (∀ i j, j < (heap.set pos (heap.getD c default)).length →
      (j = 2 * i + 1 ∨ j = 2 * i + 2) → i ≠ c → j ≠ c →
      keyAt key (heap.set pos (heap.getD c default)) i ≤
        keyAt key (heap.set pos (heap.getD c default)) j)
    ∧ (0 < c → ∀ j, j < (heap.set pos (heap.getD c default)).length →
      (j = 2 * c + 1 ∨ j = 2 * c + 2) →
      keyAt key (heap.set pos (heap.getD c default)) ((c - 1) / 2) ≤
        keyAt key (heap.set pos (heap.getD c default)) j) := by
  constructor
  · intro i j hj hc2 hic hjc
    simp only [List.length_set] at hj
    by_cases hi : i = pos
    · rw [hi, keyAt_set_self key heap pos _ hpos, keyAt_set_ne key heap pos j _ (by omega)]
      exact hmin j hj (by omega)
    · by_cases hj2 : j = pos
      · have hpos0 : 0 < pos := by omega
        have hip : i = (pos - 1) / 2 := by omega
        rw [hj2, keyAt_set_self key heap pos _ hpos,
          keyAt_set_ne key heap pos i _ (by omega), hip]
        exact k3 hpos0 c hclen hc
      · rw [keyAt_set_ne key heap pos i _ (by omega), keyAt_set_ne key heap pos j _ (by omega)]
        exact k1 i j hj hc2 hi hj2
  · intro hc0 j hj hc2
    simp only [List.length_set] at hj
    have hparc : (c - 1) / 2 = pos := by omega
    rw [hparc, keyAt_set_self key heap pos _ hpos, keyAt_set_ne key heap pos j _ (by omega)]
    exact k1 c j hj hc2 (by omega) (by omega)

/-- Invariant-preservation for the `_siftup` loop (entered with the trace
of `heappop`: `startpos = 0`). -/
theorem siftupLoop_isHeap [Inhabited α] (lt : α → α → Bool) (key : α → Int)
    (hlt : ∀ a b, lt a b = decide (key a < key b)) (newitem : α) (endpos : Nat) :
    ∀ n pos heap, endpos - pos ≤ n → endpos = heap.length → pos < heap.length →
    (∀ i j, j < heap.length → (j = 2 * i + 1 ∨ j = 2 * i + 2) → i ≠ pos → j ≠ pos →
      keyAt key heap i ≤ keyAt key heap j) →
    (0 < pos → ∀ j, j < heap.length → (j = 2 * pos + 1 ∨ j = 2 * pos + 2) →
      keyAt key heap ((pos - 1) / 2) ≤ keyAt key heap j) →
    IsHeap key (siftupLoop lt endpos 0 newitem pos heap) := by
  intro n
  induction n with
  | zero =>
    intro pos heap hn hend hpos k1 k3
    rw [siftupLoop]
    dsimp only
    split
    next hcl => exact absurd hcl (by omega)
    next hcl => exact siftupExitIsHeap lt key hlt newitem endpos pos heap hend hpos hcl k1
  | succ n ihn =>
    intro pos heap hn hend hpos k1 k3
    rw [siftupLoop]
    dsimp only
    split
    next hcl =>
      split
      next hcond =>
        have hclen : 2 * pos + 1 + 1 < heap.length := by omega
        have hmin : ∀ j, j < heap.length → (j = 2 * pos + 1 ∨ j = 2 * pos + 2) →
            keyAt key heap (2 * pos + 1 + 1) ≤ keyAt key heap j := by
          intro j hj hcj
          rcases hcj with h | h
          · rw [h]
            exact (lt_key_false lt key hlt _ _).mp hcond.2
          · rw [h]
        obtain ⟨nk1, nk3⟩ := descendInvariants key pos (2 * pos + 1 + 1) heap hpos
          (by omega) hclen hmin k1 k3
        exact ihn (2 * pos + 1 + 1) (heap.set pos (heap.getD (2 * pos + 1 + 1) default))
          (by omega) (by rw [List.length_set]; exact hend)
          (by rw [List.length_set]; exact hclen) nk1 nk3
      next hcond =>
        have hclen : 2 * pos + 1 < heap.length := by omega
        have hmin : ∀ j, j < heap.length → (j = 2 * pos + 1 ∨ j = 2 * pos + 2) →
            keyAt key heap (2 * pos + 1) ≤ keyAt key heap j := by
          intro j hj hcj
          rcases hcj with h | h
          · rw [h]
          · by_cases hr : 2 * pos + 1 + 1 < endpos
            · cases hB : lt (heap.getD (2 * pos + 1) default) (heap.getD (2 * pos + 1 + 1) default) with
              | false => exact absurd ⟨hr, hB⟩ hcond
              | true =>
                rw [h]
                exact le_of_lt ((lt_key_true lt key hlt _ _).mp hB)
            · exfalso
              omega
        obtain ⟨nk1, nk3⟩ := descendInvariants key pos (2 * pos + 1) heap hpos
          (by omega) hclen hmin k1 k3
        exact ihn (2 * pos + 1) (heap.set pos (heap.getD (2 * pos + 1) default))
          (by omega) (by rw [List.length_set]; exact hend)
          (by rw [List.length_set]; exact hclen) nk1 nk3
    next hcl => exact siftupExitIsHeap lt key hlt newitem endpos pos heap hend hpos hcl k1

/-- In a heap the root carries a minimal key. -/
theorem isHeap_root_min [Inhabited α] (key : α → Int) (h : List α) (hh : IsHeap key h) :
    ∀ i, i < h.length → keyAt key h 0 ≤ keyAt key h i := by
  intro i
  induction i using Nat.strong_induction_on with
  | _ i ih =>
    intro hi
    rcases Nat.eq_zero_or_pos i with h0 | h0
    · rw [h0]
    · have hp : (i - 1) / 2 < i := by omega
      exact le_trans (ih _ hp (by omega)) (hh _ i hi (by omega))

/-- `heappush` preserves the heap invariant. -/
theorem heappush_isHeap [Inhabited α] (lt : α → α → Bool) (key : α → Int)
    (hlt : ∀ a b, lt a b = decide (key a < key b)) (heap : List α) (item : α)
    (hh : IsHeap key heap) : IsHeap key (heappush lt heap item) := by
  unfold heappush siftdown
  rw [getD_append_len]
  apply siftdownLoop_isHeap lt key hlt item heap.length (heap ++ [item])
  · simp
  · intro i j hj hc hip hjp
    simp only [List.length_append, List.length_cons, List.length_nil] at hj
    have hj' : j < heap.length := by omega
    have hi' : i < heap.length := by omega
    rw [keyAt_append_lt key heap [item] i hi', keyAt_append_lt key heap [item] j hj']
    exact hh i j hj' hc
  · intro j hj hc
    exfalso
    simp only [List.length_append, List.length_cons, List.length_nil] at hj
    omega
  · intro hp j hj hc
    exfalso
    simp only [List.length_append, List.length_cons, List.length_nil] at hj
    omega

theorem getLast_eq_getD [Inhabited α] (l : List α) (h : l ≠ []) :
    l.getLast h = l.getD (l.length - 1) default := by
  have hdec := List.dropLast_append_getLast h
  calc l.getLast h
      = (l.dropLast ++ [l.getLast h]).getD l.dropLast.length default :=
        (getD_append_len _ _ _).symm
    _ = l.getD (l.length - 1) default := by rw [hdec, List.length_dropLast]

/-- Structure of `heappop` on a nonempty heap. -/
theorem heappop_eq_of_ne_nil [Inhabited α] (lt : α → α → Bool) (heap : List α)
    (h : heap ≠ []) :
    heappop lt heap =
      (if heap.dropLast.isEmpty then some (heap.getD (heap.length - 1) default, [])
       else some (heap.dropLast.getD 0 default,
         siftup lt (heap.dropLast.set 0 (heap.getD (heap.length - 1) default)) 0)) := by
  unfold heappop
  rw [List.getLast?_eq_getLast _ h, getLast_eq_getD _ h]

/-- `heappop` preserves the heap invariant on the remaining buffer. -/
theorem heappop_isHeap [Inhabited α] (lt : α → α → Bool) (key : α → Int)
    (hlt : ∀ a b, lt a b = decide (key a < key b)) (heap : List α)
    (hh : IsHeap key heap) (x : α) (rest : List α)
    (he : heappop lt heap = some (x, rest)) : IsHeap key rest := by
  have hne : heap ≠ [] := by
    intro h0
    rw [h0] at he
    simp [heappop] at he
  rw [heappop_eq_of_ne_nil lt heap hne] at he
  by_cases hemp : heap.dropLast.isEmpty
  · rw [if_pos hemp] at he
    simp only [Option.some.injEq, Prod.mk.injEq] at he
    intro i j hj hc
    rw [← he.2] at hj
    simp at hj
  · rw [if_neg hemp] at he
    simp only [Option.some.injEq, Prod.mk.injEq] at he
    have hlen2 : 2 ≤ heap.length := by
      rcases heap with _ | ⟨a, _ | ⟨b, t⟩⟩
      · exact absurd rfl hne
      · simp at hemp
      · simp
    rw [← he.2]
    unfold siftup
    apply siftupLoop_isHeap lt key hlt _ _ (heap.dropLast.set 0 (heap.getD (heap.length - 1) default)).length
    · exact le_refl _
    · rfl
    · simp only [List.length_set, List.length_dropLast]
      omega
    · intro i j hj hc hip hjp
      simp only [List.length_set, List.length_dropLast] at hj
      rw [keyAt_set_ne key _ 0 i _ (by omega), keyAt_set_ne key _ 0 j _ (by omega),
        keyAt_dropLast key heap i (by omega), keyAt_dropLast key heap j (by omega)]
      exact hh i j (by omega) hc
    · intro hcon
      exact absurd hcon (by omega)

/-- On a heap, `heappop` returns an element whose key is minimal among
everything that was pending at the instant of the call. -/
theorem heappop_min [Inhabited α] (lt : α → α → Bool) (key : α → Int)
    (heap : List α) (hh : IsHeap key heap) (x : α) (rest : List α)
    (he : heappop lt heap = some (x, rest)) : ∀ y ∈ heap, key x ≤ key y := by
  have hne : heap ≠ [] := by
    intro h0
    rw [h0] at he
    simp [heappop] at he
  rw [heappop_eq_of_ne_nil lt heap hne] at he
  have hroot : ∀ y ∈ heap, keyAt key heap 0 ≤ key y := by
    intro y hy
    rcases mem_getD heap y default hy with ⟨i, hi, hv⟩
    have := isHeap_root_min key heap hh i hi
    unfold keyAt at this
    rw [hv] at this
    exact this
  by_cases hemp : heap.dropLast.isEmpty
  · rw [if_pos hemp] at he
    simp only [Option.some.injEq, Prod.mk.injEq] at he
    have hlen1 : heap.length = 1 := by
      have h1 : heap.dropLast.length = 0 := by
        rw [List.isEmpty_iff] at hemp
        rw [hemp]
        rfl
      rw [List.length_dropLast] at h1
      have : heap.length ≠ 0 := by
        intro h0
        exact hne (List.length_eq_zero.mp h0)
      omega
    have hx : x = heap.getD 0 default := by
      rw [← he.1, hlen1]
    rw [hx]
    exact hroot
  · rw [if_neg hemp] at he
    simp only [Option.some.injEq, Prod.mk.injEq] at he
    have hlen2 : 2 ≤ heap.length := by
      have h1 : heap.dropLast.length ≠ 0 := by
        intro h0
        exact hemp (List.isEmpty_iff.mpr (List.length_eq_zero.mp h0))
      rw [List.length_dropLast] at h1
      omega
    have hx : x = heap.getD 0 default := by
      rw [← he.1, getD_dropLast heap 0 default (by omega)]
    rw [hx]
    exact hroot

/-- Inversion of a successful blocking `get`. -/
theorem qget_got (deq : List α → Option (α × List α)) (b : Bool) (s : QState α) (x : α)
    (s1 : QState α) (h : qget deq b s = GetOutcome.got x s1) :
    deq s.queue = some (x, s1.queue) ∧ s1.unfinished_tasks = s.unfinished_tasks := by
  unfold qget at h
  cases hd : deq s.queue with
  | none =>
    rw [hd] at h
    cases b <;> simp at h
  | some p =>
    obtain ⟨y, r⟩ := p
    rw [hd] at h
    simp only [GetOutcome.got.injEq] at h
    obtain ⟨h1, h2⟩ := h
    subst h1
    subst h2
    exact ⟨rfl, rfl⟩

/-- Counter equation along any successful schedule: the final in-flight
counter plus the completed `task_done` calls equals the initial counter
plus the `put` calls. -/
theorem runQ_unfinished (enq : List α → α → List α) (deq : List α → Option (α × List α)) :
    ∀ ops (s s' : QState α) outs, runQ enq deq s ops = some (s', outs) →
    s'.unfinished_tasks + countDones ops = s.unfinished_tasks + countPuts ops := by
  intro ops
  induction ops with
  | nil =>
    intro s s' outs h
    simp only [runQ, Option.some.injEq, Prod.mk.injEq] at h
    rw [← h.1]
    rfl
  | cons op ops ih =>
    intro s s' outs h
    cases op with
    | put x =>
      simp only [runQ] at h
      have h2 : s'.unfinished_tasks + countDones ops =
          (s.unfinished_tasks + 1) + countPuts ops := ih _ _ _ h
      simp only [countPuts, countDones]
      omega
    | get =>
      simp only [runQ] at h
      split at h
      next y s1 hq =>
        split at h
        next hr => simp at h
        next s2 outs2 hr =>
          simp only [Option.some.injEq, Prod.mk.injEq] at h
          have hu := (qget_got deq true s y s1 hq).2
          have h2 := ih _ _ _ hr
          simp only [countPuts, countDones]
          rw [← h.1]
          omega
      next hq => simp at h
      next hq => simp at h
    | taskDoneOp =>
      simp only [runQ] at h
      by_cases hz : s.unfinished_tasks = 0
      · rw [task_done, if_pos hz] at h
        simp at h
      · rw [task_done, if_neg hz] at h
        simp only [] at h
        have h2 : s'.unfinished_tasks + countDones ops =
            (s.unfinished_tasks - 1) + countPuts ops := ih _ _ _ h
        simp only [countPuts, countDones]
        omega
    | joinOp =>
      simp only [runQ] at h
      by_cases hz : s.unfinished_tasks = 0
      · rw [if_pos hz] at h
        have h2 := ih _ _ _ h
        simp only [countPuts, countDones]
        omega
      · rw [if_neg hz] at h
        simp at h

/-- Any predicate on the buffer preserved by `enq` and `deq` is an
invariant of every successful schedule. -/
theorem runQ_preserves (enq : List α → α → List α) (deq : List α → Option (α × List α))
    (P : List α → Prop)
    (hput : ∀ l x, P l → P (enq l x))
    (hget : ∀ l x r, P l → deq l = some (x, r) → P r) :
    ∀ ops (s s' : QState α) outs, runQ enq deq s ops = some (s', outs) →
    P s.queue → P s'.queue := by
  intro ops
  induction ops with
  | nil =>
    intro s s' outs h hp
    simp only [runQ, Option.some.injEq, Prod.mk.injEq] at h
    rw [← h.1]
    exact hp
  | cons op ops ih =>
    intro s s' outs h hp
    cases op with
    | put x =>
      simp only [runQ] at h
      exact ih _ _ _ h (hput s.queue x hp)
    | get =>
      simp only [runQ] at h
      split at h
      next y s1 hq =>
        split at h
        next hr => simp at h
        next s2 outs2 hr =>
          simp only [Option.some.injEq, Prod.mk.injEq] at h
          have hd := (qget_got deq true s y s1 hq).1
          have h2 := ih _ _ _ hr (hget s.queue y s1.queue hp hd)
          rw [← h.1]
          exact h2
      next hq => simp at h
      next hq => simp at h
    | taskDoneOp =>
      simp only [runQ] at h
      by_cases hz : s.unfinished_tasks = 0
      · rw [task_done, if_pos hz] at h
        simp at h
      · rw [task_done, if_neg hz] at h
        simp only [] at h
        exact ih _ _ _ h hp
    | joinOp =>
      simp only [runQ] at h
      by_cases hz : s.unfinished_tasks = 0
      · rw [if_pos hz] at h
        exact ih _ _ _ h hp
      · rw [if_neg hz] at h
        simp at h

/-- FIFO bookkeeping: initial buffer followed by the values enqueued
equals the values returned by `get` followed by the final buffer. -/
theorem runQ_fifo_order :
    ∀ ops (s s' : QState α) outs, runQ fifoEnq fifoDeq s ops = some (s', outs) →
    s.queue ++ putsOf ops = outs ++ s'.queue := by
  intro ops
  induction ops with
  | nil =>
    intro s s' outs h
    simp only [runQ, Option.some.injEq, Prod.mk.injEq] at h
    rw [← h.1, ← h.2]
    simp [putsOf]
  | cons op ops ih =>
    intro s s' outs h
    cases op with
    | put x =>
      simp only [runQ] at h
      have h2 := ih _ _ _ h
      simp only [qput, fifoEnq] at h2
      simp only [putsOf]
      rw [← h2]
      simp
    | get =>
      simp only [runQ] at h
      split at h
      next y s1 hq =>
        split at h
        next hr => simp at h
        next s2 outs2 hr =>
          simp only [Option.some.injEq, Prod.mk.injEq] at h
          have hd := (qget_got fifoDeq true s y s1 hq).1
          have hcons : s.queue = y :: s1.queue := by
            cases hsq : s.queue with
            | nil => rw [hsq] at hd; simp [fifoDeq] at hd
            | cons z zs =>
              rw [hsq] at hd
              simp only [fifoDeq, Option.some.injEq, Prod.mk.injEq] at hd
              rw [hd.1, hd.2]
          have h2 := ih _ _ _ hr
          rw [← h.1, ← h.2, hcons]
          simp only [putsOf, List.cons_append]
          rw [h2]
      next hq => simp at h
      next hq => simp at h
    | taskDoneOp =>
      simp only [runQ] at h
      by_cases hz : s.unfinished_tasks = 0
      · rw [task_done, if_pos hz] at h
        simp at h
      · rw [task_done, if_neg hz] at h
        simp only [] at h
        have h2 := ih _ _ _ h
        simpa [putsOf] using h2
    | joinOp =>
      simp only [runQ] at h
      by_cases hz : s.unfinished_tasks = 0
      · rw [if_pos hz] at h
        have h2 := ih _ _ _ h
        simpa [putsOf] using h2
      · rw [if_neg hz] at h
        simp at h

/-- A buffer is reachable for the priority queue when some schedule from
the empty queue produces it. -/
def PrioReachable (heap : List Job) : Prop :=
  ∃ ops s outs, runQ prioEnq prioDeq ⟨[], 0⟩ ops = some (s, outs) ∧ s.queue = heap

theorem prioReachable_isHeap (heap : List Job) (h : PrioReachable heap) :
    IsHeap Job.priority heap := by
  obtain ⟨ops, s, outs, hrun, hq⟩ := h
  have hinv := runQ_preserves prioEnq prioDeq (IsHeap Job.priority)
    (fun l x hl => heappush_isHeap jobLtB Job.priority (fun _ _ => rfl) l x hl)
    (fun l x r hl hd => heappop_isHeap jobLtB Job.priority (fun _ _ => rfl) l hl x r hd)
    ops ⟨[], 0⟩ s outs hrun (by intro i j hj hc; simp at hj)
  rw [← hq]
  exact hinv

/-! ## The downloader worker (`download_enclosures`) -/

/-- `url.rpartition("/")[-1]`: the suffix after the last occurrence of
`'/'` (the whole string when no slash occurs). -/
def rpartitionAfterSlash (s : String) : String :=
  ⟨(s.data.reverse.takeWhile (fun c => c ≠ '/')).reverse⟩

/-- Transport failure of `urllib.request.urlopen` / `.read()`. -/
inductive NetErr where
| networkError : NetErr
deriving DecidableEq

/-- Persistence failure of `open(filename, "wb")` / `outfile.write`. -/
inductive SaveErr where
| saveError : SaveErr
deriving DecidableEq

/-- Outcome of one iteration of a download worker. -/
inductive WorkerOutcome (β : Type) where
| blockedOnGet : WorkerOutcome β
| crashed : QState String → WorkerOutcome β
| completed : QState String → String → WorkerOutcome β
deriving DecidableEq

/-- One iteration of the `while True` body of `download_enclosures`:
`url = q.get()` (blocking), `filename = url.rpartition("/")[-1]`, fetch
the body (`urllib.request.urlopen(req)` / `response.read()`), write it to
`filename`, then `q.task_done()`.  No handler is installed around the
fetch or the write, so an exception there propagates out of the loop
(`crashed`) without reaching `q.task_done()`. -/
def download_enclosures_iter (fetch : String → Except NetErr β)
    (save : String → β → Except SaveErr Unit) (s : QState String) :
    WorkerOutcome β :=
  match qget fifoDeq true s with
  | GetOutcome.blocked => WorkerOutcome.blockedOnGet
  | GetOutcome.emptyErr => WorkerOutcome.blockedOnGet
  | GetOutcome.got url s1 =>
    let filename := rpartitionAfterSlash url
    match fetch url with
    | Except.error _ => WorkerOutcome.crashed s1
    | Except.ok data =>
      match save filename data with
      | Except.error _ => WorkerOutcome.crashed s1
      | Except.ok _ =>
        match task_done s1 with
        | Except.error _ => WorkerOutcome.crashed s1
        | Except.ok s2 => WorkerOutcome.completed s2 filename

/-! ## The feed producer loop -/

structure Enclosure where
  url : String
deriving DecidableEq

/-- A parsed entry: a `title` and, optionally, an `enclosures` list
(`entry.get("enclosures", [])` supplies `[]` when the key is absent). -/
structure Entry where
  title : String
  enclosures : Option (List Enclosure)
deriving DecidableEq

structure Feed where
  entries : List Entry
deriving DecidableEq

/-- `entry.get("enclosures", [])`. -/
def Entry.getEnclosures (e : Entry) : List Enclosure := e.enclosures.getD []

/-- The producer loop: for each feed URL, parse the feed, and for each of
the first five entries (`response["entries"][:5]`) put every enclosure's
URL on the queue. -/
def enqueueFeeds (parseFeed : String → Feed) (feed_urls : List String)
    (s : QState String) : QState String :=
  feed_urls.foldl (fun s1 u =>
    ((parseFeed u).entries.take 5).foldl (fun s2 e =>
      e.getEnclosures.foldl (fun s3 enc => qput fifoEnq s3 enc.url) s2) s1) s

/-! ## Helper lemmas about the downloader and producer -/

theorem dropWhile_head_not (p : α → Bool) (l : List α) (c : α) (d : List α)
    (h : l.dropWhile p = c :: d) : p c = false := by
  induction l with
  | nil => simp [List.dropWhile] at h
  | cons x xs ih =>
    rw [List.dropWhile_cons] at h
    by_cases hp : p x = true
    · rw [if_pos hp] at h
      exact ih h
    · rw [if_neg hp] at h
      injection h with h1 h2
      rw [← h1]
      simpa using hp

/-- The re-implementation-facing description of
`url.rpartition("/")[-1]`: when the URL contains a slash, the result is
exactly the final path segment (the slash-free suffix after the last
slash). -/
theorem rpartitionAfterSlash_spec (url : String) (h : '/' ∈ url.data) :
    ∃ pre, url.data = pre ++ '/' :: (rpartitionAfterSlash url).data ∧
      '/' ∉ (rpartitionAfterSlash url).data := by
  have hr : ('/' : Char) ∈ url.data.reverse := List.mem_reverse.mpr h
  have hd : url.data.reverse.dropWhile (fun c => c ≠ '/') ≠ [] := by
    intro h0
    have := List.dropWhile_eq_nil_iff.mp h0 '/' hr
    simp at this
  obtain ⟨c0, d', hd'⟩ := List.exists_cons_of_ne_nil hd
  have hc0 : c0 = '/' := by
    have := dropWhile_head_not (fun c => c ≠ '/') url.data.reverse c0 d' hd'
    simpa using this
  rw [hc0] at hd'
  have hsplit : url.data.reverse.takeWhile (fun c => c ≠ '/') ++ ('/' :: d') =
      url.data.reverse := by
    rw [← hd']
    exact List.takeWhile_append_dropWhile _ _
  refine ⟨d'.reverse, ?_, ?_⟩
  · calc url.data = url.data.reverse.reverse := (List.reverse_reverse _).symm
    _ = (url.data.reverse.takeWhile (fun c => c ≠ '/') ++ ('/' :: d')).reverse := by
        rw [hsplit]
    _ = d'.reverse ++ '/' :: (rpartitionAfterSlash url).data := by
        simp [rpartitionAfterSlash, List.reverse_append]
  · intro hx
    have hx2 : '/' ∈ url.data.reverse.takeWhile (fun c => c ≠ '/') := by
      have : (rpartitionAfterSlash url).data =
          (url.data.reverse.takeWhile (fun c => c ≠ '/')).reverse := rfl
      rw [this] at hx
      exact List.mem_reverse.mp hx
    have := List.mem_takeWhile_imp hx2
    simp at this

theorem fifoDeq_eq_none_iff (l : List α) : fifoDeq l = none ↔ l = [] := by
  cases l <;> simp [fifoDeq]

theorem prioDeq_eq_none_iff (l : List Job) : prioDeq l = none ↔ l = [] := by
  cases hl : l with
  | nil => simp [prioDeq, heappop]
  | cons x xs =>
    simp only [prioDeq, heappop]
    rw [List.getLast?_eq_getLast _ (by simp)]
    split
    next heq => simp at heq
    next lastelt heq =>
      split <;> simp

theorem foldl_qput_queue (l : List Enclosure) (s : QState String) :
    (l.foldl (fun s3 enc => qput fifoEnq s3 enc.url) s).queue =
      s.queue ++ l.map Enclosure.url := by
  induction l generalizing s with
  | nil => simp
  | cons x xs ih =>
    rw [List.foldl_cons, ih]
    simp [qput, fifoEnq]

theorem foldl_entries_queue (l : List Entry) (s : QState String) :
    (l.foldl (fun s2 e =>
      e.getEnclosures.foldl (fun s3 enc => qput fifoEnq s3 enc.url) s2) s).queue =
      s.queue ++ l.flatMap (fun e => e.getEnclosures.map Enclosure.url) := by
  induction l generalizing s with
  | nil => simp
  | cons x xs ih =>
    rw [List.foldl_cons, ih, foldl_qput_queue]
    simp [List.append_assoc]

theorem enqueueFeeds_queue (parseFeed : String → Feed) (feed_urls : List String)
    (s : QState String) :
    (enqueueFeeds parseFeed feed_urls s).queue =
      s.queue ++ feed_urls.flatMap (fun u =>
        ((parseFeed u).entries.take 5).flatMap
          (fun e => e.getEnclosures.map Enclosure.url)) := by
  induction feed_urls generalizing s with
  | nil => simp [enqueueFeeds]
  | cons u us ih =>
    simp only [enqueueFeeds, List.foldl_cons] at ih ⊢
    rw [ih, foldl_entries_queue]
    simp [List.append_assoc]

/-! ## The concrete jobs and schedule of the first program -/

def jobMid : Job := ⟨3, "中优先级"⟩
def jobLow : Job := ⟨42, "低优先级"⟩
def jobHigh : Job := ⟨2, "高优先级"⟩

/-- The schedule realised by the first program: the main thread's three
`put` calls before any worker runs, the workers' `get`/`task_done`
iterations, then the main thread's `join`. -/
def scenarioOps : List (QOp Job) :=
  [QOp.put jobMid, QOp.put jobLow, QOp.put jobHigh,
   QOp.get, QOp.taskDoneOp, QOp.get, QOp.taskDoneOp, QOp.get, QOp.taskDoneOp,
   QOp.joinOp]

/-! ## Claims -/

set_option maxRecDepth 8000

/-- Claim C1: with priorities 3, 42, 2 enqueued in that order before any
get, the three `get()` calls return the priority-2, then priority-3, then
priority-42 task; and in general `get()` never returns a task while a
strictly smaller-priority task is pending in the queue at the instant of
the call. -/
theorem priorityQueue_get_returns_minimal :
    (runQ prioEnq prioDeq ⟨[], 0⟩ scenarioOps =
        some (⟨[], 0⟩, [jobHigh, jobMid, jobLow]) ∧
      jobHigh.priority = 2 ∧ jobMid.priority = 3 ∧ jobLow.priority = 42) ∧
    ∀ heap x rest, PrioReachable heap →
      heappop jobLtB heap = some (x, rest) →
      ∀ y ∈ heap, ¬ y.priority < x.priority := by
  constructor
  · refine ⟨?_, rfl, rfl, rfl⟩
    simp [runQ, scenarioOps, qput, qget, prioEnq, prioDeq, heappush, heappop,
      siftdown, siftup, siftdownLoop, siftupLoop, task_done, jobMid, jobLow, jobHigh, jobLtB]
  · intro heap x rest hre hpop y hy
    have hh := prioReachable_isHeap heap hre
    have hmin := heappop_min jobLtB Job.priority heap hh x rest hpop y hy
    omega

/-- Witness for C1 at the two-element reachable heap
`[Job 2 "x", Job 3 "y"]`. -/
theorem priorityQueue_get_returns_minimal_witness :
    ¬ (Job.mk 2 "x").priority < (Job.mk 2 "x").priority ∧
    ¬ (Job.mk 3 "y").priority < (Job.mk 2 "x").priority := by
  have hre : PrioReachable [Job.mk 2 "x", Job.mk 3 "y"] :=
    ⟨[QOp.put (Job.mk 2 "x"), QOp.put (Job.mk 3 "y")],
      ⟨[Job.mk 2 "x", Job.mk 3 "y"], 2⟩, [],
      by simp [runQ, qput, prioEnq, heappush, siftdown, siftdownLoop, jobLtB], rfl⟩
  have hpop : heappop jobLtB [Job.mk 2 "x", Job.mk 3 "y"] =
      some (Job.mk 2 "x", [Job.mk 3 "y"]) := by
    simp [heappop, siftup, siftupLoop, siftdownLoop, jobLtB]
  exact ⟨priorityQueue_get_returns_minimal.2 _ _ _ hre hpop _ (by simp),
    priorityQueue_get_returns_minimal.2 _ _ _ hre hpop _ (by simp)⟩

/-- Claim C2: a blocking `join` returns exactly when the in-flight
counter is zero, which from an initial counter of zero happens exactly
when the `task_done` calls balance the `put` calls; `join` does not
change the state, so it may be repeated and returns immediately at
zero. -/
theorem join_returns_iff_counts_balance (enq : List α → α → List α)
    (deq : List α → Option (α × List α)) :
    (∀ (s : QState α) (ops : List (QOp α)), s.unfinished_tasks = 0 →
      runQ enq deq s (QOp.joinOp :: ops) = runQ enq deq s ops)
    ∧ (∀ (s : QState α) (ops : List (QOp α)), s.unfinished_tasks ≠ 0 →
      runQ enq deq s (QOp.joinOp :: ops) = none)
    ∧ ∀ (ops : List (QOp α)) (q0 : List α) (s' : QState α) (outs : List α),
      runQ enq deq ⟨q0, 0⟩ ops = some (s', outs) →
      (joinUnblocked s' ↔ countDones ops = countPuts ops) := by
  refine ⟨?_, ?_, ?_⟩
  · intro s ops h
    simp [runQ, h]
  · intro s ops h
    simp [runQ, h]
  · intro ops q0 s' outs h
    have h2 : s'.unfinished_tasks + countDones ops = 0 + countPuts ops :=
      runQ_unfinished enq deq ops ⟨q0, 0⟩ s' outs h
    unfold joinUnblocked
    omega

/-- Witness for C2 on the schedule put-get-task_done. -/
theorem join_returns_iff_counts_balance_witness :
    joinUnblocked (⟨[], 0⟩ : QState Nat) ↔
      countDones [QOp.put (1 : Nat), QOp.get, QOp.taskDoneOp] =
        countPuts [QOp.put (1 : Nat), QOp.get, QOp.taskDoneOp] :=
  (join_returns_iff_counts_balance fifoEnq fifoDeq).2.2
    [QOp.put 1, QOp.get, QOp.taskDoneOp] [] ⟨[], 0⟩ [1] rfl

/-- Claim C3: for the FIFO variant, the sequence of values returned by
`get` is exactly the enqueue sequence (what has been returned so far,
followed by what is still pending, is the `put` sequence in order). -/
theorem fifo_get_strict_enqueue_order (ops : List (QOp α)) (u0 : Nat)
    (s' : QState α) (outs : List α)
    (h : runQ fifoEnq fifoDeq ⟨[], u0⟩ ops = some (s', outs)) :
    putsOf ops = outs ++ s'.queue := by
  have h2 := runQ_fifo_order ops ⟨[], u0⟩ s' outs h
  simpa using h2

/-- Witness for C3 on a five-operation schedule. -/
theorem fifo_get_strict_enqueue_order_witness :
    putsOf [QOp.put (1 : Nat), QOp.put 2, QOp.get, QOp.put 3, QOp.get] =
      [1, 2] ++ (⟨[3], 3⟩ : QState Nat).queue :=
  fifo_get_strict_enqueue_order _ 0 _ _ rfl

/-- Counterexample to claim C4: four jobs of equal priority 1 enqueued as
"a", "b", "c", "d"; the second `get` returns the job enqueued third
("c") while the job enqueued second ("b", same priority) is still
pending — the tie is not broken by insertion order. -/
theorem priority_tie_insertion_order_cex :
    runQ prioEnq prioDeq ⟨[], 0⟩
        [QOp.put ⟨1, "a"⟩, QOp.put ⟨1, "b"⟩, QOp.put ⟨1, "c"⟩, QOp.put ⟨1, "d"⟩,
         QOp.get, QOp.get] =
      some (⟨[⟨1, "b"⟩, ⟨1, "d"⟩], 4⟩, [⟨1, "a"⟩, ⟨1, "c"⟩]) ∧
    (⟨1, "c"⟩ : Job) ≠ ⟨1, "b"⟩ ∧
    (⟨1, "c"⟩ : Job).priority = (⟨1, "b"⟩ : Job).priority := by
  refine ⟨?_, by decide, rfl⟩
  simp [runQ, qput, qget, prioEnq, prioDeq, heappush, heappop, siftdown, siftup,
    siftdownLoop, siftupLoop, jobLtB]

/-- Amended claim C4: equal-priority tasks are each delivered exactly
once and always with the minimal pending priority value, but in heap
order, which need not be insertion order. -/
theorem priority_tie_heap_order_amended :
    runQ prioEnq prioDeq ⟨[], 0⟩
        [QOp.put ⟨1, "a"⟩, QOp.put ⟨1, "b"⟩, QOp.put ⟨1, "c"⟩, QOp.put ⟨1, "d"⟩,
         QOp.get, QOp.get, QOp.get, QOp.get] =
      some (⟨[], 4⟩, [⟨1, "a"⟩, ⟨1, "c"⟩, ⟨1, "b"⟩, ⟨1, "d"⟩]) ∧
    List.Perm [(⟨1, "a"⟩ : Job), ⟨1, "c"⟩, ⟨1, "b"⟩, ⟨1, "d"⟩]
      [⟨1, "a"⟩, ⟨1, "b"⟩, ⟨1, "c"⟩, ⟨1, "d"⟩] ∧
    ∀ y ∈ [(⟨1, "a"⟩ : Job), ⟨1, "c"⟩, ⟨1, "b"⟩, ⟨1, "d"⟩], y.priority = 1 := by
  refine ⟨?_, by decide, by decide⟩
  simp [runQ, qput, qget, prioEnq, prioDeq, heappush, heappop, siftdown, siftup,
    siftdownLoop, siftupLoop, jobLtB]

/-- Counterexample to claim C5: when the fetch step fails, the exception
propagates out of the worker body and `task_done` is never invoked: the
in-flight counter stays at 1 and `join` remains blocked. -/
theorem task_done_skipped_on_fetch_failure_cex :
    download_enclosures_iter
        (fun _ => (Except.error NetErr.networkError : Except NetErr Unit))
        (fun _ _ => Except.ok ()) ⟨["http://h/a.mp3"], 1⟩ =
      WorkerOutcome.crashed ⟨[], 1⟩ ∧
    ¬ joinUnblocked (⟨[], 1⟩ : QState String) := by
  constructor
  · rfl
  · simp [joinUnblocked]

/-- Amended claim C5: `task_done` is invoked only on the success path.
When fetch and persistence both succeed it runs exactly once and
decrements the counter; when either fails the iteration crashes with the
counter unchanged (so `join` would hang). -/
theorem task_done_success_path_only (β : Type) (fetch : String → Except NetErr β)
    (save : String → β → Except SaveErr Unit) (url : String) (rest : List String)
    (u : Nat) (hu : u ≠ 0) :
    (∀ data, fetch url = Except.ok data →
      save (rpartitionAfterSlash url) data = Except.ok () →
      download_enclosures_iter fetch save ⟨url :: rest, u⟩ =
        WorkerOutcome.completed ⟨rest, u - 1⟩ (rpartitionAfterSlash url))
    ∧ (∀ e, fetch url = Except.error e →
      download_enclosures_iter fetch save ⟨url :: rest, u⟩ =
        WorkerOutcome.crashed ⟨rest, u⟩)
    ∧ (∀ data e, fetch url = Except.ok data →
      save (rpartitionAfterSlash url) data = Except.error e →
      download_enclosures_iter fetch save ⟨url :: rest, u⟩ =
        WorkerOutcome.crashed ⟨rest, u⟩) := by
  refine ⟨?_, ?_, ?_⟩
  · intro data hf hs
    simp [download_enclosures_iter, qget, fifoDeq, hf, hs, task_done, hu]
  · intro e hf
    simp [download_enclosures_iter, qget, fifoDeq, hf]
  · intro data e hf hs
    simp [download_enclosures_iter, qget, fifoDeq, hf, hs]

/-- Witness for the amended C5 on a succeeding fetch. -/
theorem task_done_success_path_only_witness :
    download_enclosures_iter (fun _ => (Except.ok 0 : Except NetErr Nat))
        (fun _ _ => Except.ok ()) ⟨["http://h/x.mp3"], 1⟩ =
      WorkerOutcome.completed ⟨[], 0⟩ (rpartitionAfterSlash "http://h/x.mp3") :=
  (task_done_success_path_only Nat _ _ "http://h/x.mp3" [] 1 (by decide)).1 0 rfl rfl

/-- Claim C6: a blocking `get` never raises on an empty queue — it
blocks exactly when the buffer is empty, never reports the
(non-blocking) `Empty` error, and returns a task whenever one is
pending.  There is no queue-closed signal: `GetOutcome` has no such
constructor. -/
theorem get_blocks_on_empty_never_errors (deq : List α → Option (α × List α))
    (hdeq : ∀ l, deq l = none ↔ l = []) :
    (∀ s : QState α, qget deq true s ≠ GetOutcome.emptyErr)
    ∧ (∀ s : QState α, s.queue = [] ↔ qget deq true s = GetOutcome.blocked)
    ∧ (∀ s : QState α, s.queue ≠ [] →
      ∃ x s1, qget deq true s = GetOutcome.got x s1) := by
  refine ⟨?_, ?_, ?_⟩
  · intro s
    unfold qget
    cases hd : deq s.queue with
    | none => simp
    | some p =>
      obtain ⟨x, r⟩ := p
      simp
  · intro s
    constructor
    · intro h
      have hd : deq s.queue = none := (hdeq s.queue).mpr h
      unfold qget
      rw [hd]
      rfl
    · intro h
      by_contra hne
      cases hd : deq s.queue with
      | none => exact hne ((hdeq s.queue).mp hd)
      | some p =>
        obtain ⟨x, r⟩ := p
        unfold qget at h
        rw [hd] at h
        simp at h
  · intro s hne
    cases hd : deq s.queue with
    | none => exact absurd ((hdeq s.queue).mp hd) hne
    | some p =>
      obtain ⟨x, r⟩ := p
      refine ⟨x, ⟨r, s.unfinished_tasks⟩, ?_⟩
      unfold qget
      rw [hd]

/-- Witness for C6 with the FIFO buffer discipline. -/
theorem get_blocks_on_empty_never_errors_witness :
    qget fifoDeq true (⟨[], 5⟩ : QState Nat) = GetOutcome.blocked ∧
    qget fifoDeq true (⟨[7], 5⟩ : QState Nat) ≠ GetOutcome.emptyErr :=
  ⟨((get_blocks_on_empty_never_errors fifoDeq fifoDeq_eq_none_iff).2.1 ⟨[], 5⟩).mp rfl,
   (get_blocks_on_empty_never_errors fifoDeq fifoDeq_eq_none_iff).1 ⟨[7], 5⟩⟩

/-- Claim C7: both comparison methods are computed from the priority key
alone — equality holds exactly for equal priorities and less-than
exactly for smaller priority, whatever the description payloads are. -/
theorem job_comparisons_use_priority_only (p1 p2 : Int) (d1 d2 : String) :
    Job.eqPy ⟨p1, d1⟩ (PyVal.job ⟨p2, d2⟩) = CmpResult.boolRes (decide (p1 = p2)) ∧
    Job.ltPy ⟨p1, d1⟩ (PyVal.job ⟨p2, d2⟩) = CmpResult.boolRes (decide (p1 < p2)) :=
  ⟨rfl, rfl⟩

/-- Claim C8: only the first five entries of each feed contribute work:
the enqueued URLs are exactly the enclosure URLs of the first five
entries of each feed, and truncating every feed to its first five
entries changes nothing. -/
theorem producer_enqueues_first_five_entries (parseFeed : String → Feed)
    (feed_urls : List String) (s : QState String) :
    (enqueueFeeds parseFeed feed_urls s).queue =
      s.queue ++ feed_urls.flatMap (fun u =>
        ((parseFeed u).entries.take 5).flatMap
          (fun e => e.getEnclosures.map Enclosure.url)) ∧
    enqueueFeeds (fun u => Feed.mk ((parseFeed u).entries.take 5)) feed_urls s =
      enqueueFeeds parseFeed feed_urls s := by
  constructor
  · exact enqueueFeeds_queue parseFeed feed_urls s
  · unfold enqueueFeeds
    congr 1
    funext s1 u
    simp [List.take_take]

/-- Claim C9: the filename handed to persistence is
`url.rpartition("/")[-1]`, and for URLs containing a slash this is the
final path segment: the slash-free suffix after the last slash. -/
theorem download_filename_final_segment :
    (∀ url : String, '/' ∈ url.data →
      ∃ pre, url.data = pre ++ '/' :: (rpartitionAfterSlash url).data ∧
        '/' ∉ (rpartitionAfterSlash url).data) ∧
    ∀ (β : Type) (fetch : String → Except NetErr β)
      (save : String → β → Except SaveErr Unit) (url : String) (rest : List String)
      (u : Nat) (s2 : QState String) (fn : String),
      download_enclosures_iter fetch save ⟨url :: rest, u⟩ =
        WorkerOutcome.completed s2 fn → fn = rpartitionAfterSlash url := by
  constructor
  · exact rpartitionAfterSlash_spec
  · intro β fetch save url rest u s2 fn h
    simp only [download_enclosures_iter, qget, fifoDeq] at h
    split at h
    next e heq => simp at h
    next data heq =>
      split at h
      next e heq2 => simp at h
      next heq2 =>
        split at h
        next e heq3 => simp at h
        next s3 heq3 =>
          simp only [WorkerOutcome.completed.injEq] at h
          exact h.2.symm

/-- Witness for C9 at a concrete URL. -/
theorem download_filename_final_segment_witness :
    ∃ pre, ("http://h/x.mp3" : String).data =
      pre ++ '/' :: (rpartitionAfterSlash "http://h/x.mp3").data ∧
      '/' ∉ (rpartitionAfterSlash "http://h/x.mp3").data :=
  download_filename_final_segment.1 "http://h/x.mp3" (by decide)

/-- Claim C10: comparing a `Job` with an object lacking a `priority`
attribute raises no error: both methods catch the `AttributeError` and
return `NotImplemented`. -/
theorem job_compare_missing_priority_not_implemented (j : Job) (v : PyVal)
    (h : v.priorityAttr = Except.error AttrError.attributeError) :
    Job.eqPy j v = CmpResult.notImplemented ∧
    Job.ltPy j v = CmpResult.notImplemented := by
  unfold Job.eqPy Job.ltPy
  rw [h]
  exact ⟨rfl, rfl⟩

/-- Witness for C10 at a priority-free object. -/
theorem job_compare_missing_priority_not_implemented_witness :
    Job.eqPy ⟨1, "a"⟩ (PyVal.noPriorityObj 0) = CmpResult.notImplemented ∧
    Job.ltPy ⟨1, "a"⟩ (PyVal.noPriorityObj 0) = CmpResult.notImplemented :=
  job_compare_missing_priority_not_implemented ⟨1, "a"⟩ (PyVal.noPriorityObj 0) rfl

/-- Witness for C7 at equal priorities and distinct payloads. -/
theorem job_comparisons_use_priority_only_witness :
    Job.eqPy ⟨1, "a"⟩ (PyVal.job ⟨1, "b"⟩) = CmpResult.boolRes (decide ((1 : Int) = 1)) ∧
    Job.ltPy ⟨1, "a"⟩ (PyVal.job ⟨1, "b"⟩) = CmpResult.boolRes (decide ((1 : Int) < 1)) :=
  job_comparisons_use_priority_only 1 1 "a" "b"

/-- Witness for C8 on a one-feed, one-entry configuration. -/
theorem producer_enqueues_first_five_entries_witness :
    (enqueueFeeds (fun _ => Feed.mk [Entry.mk "t" (some [Enclosure.mk "u1"])])
        ["f"] ⟨[], 0⟩).queue =
      [] ++ ["f"].flatMap (fun u =>
        (((fun _ => Feed.mk [Entry.mk "t" (some [Enclosure.mk "u1"])]) u).entries.take 5).flatMap
          (fun e => e.getEnclosures.map Enclosure.url)) :=
  (producer_enqueues_first_five_entries
    (fun _ => Feed.mk [Entry.mk "t" (some [Enclosure.mk "u1"])]) ["f"] ⟨[], 0⟩).1
